import Mathlib

/-!
Shallow embedding of pyTempNets' HigherOrderNetwork module
(src/pyTempNet/HigherOrderNetwork.py): the k-path extraction algorithm
(private method of the class), the k-th order graph builders
(igraphKthOrder, igraphKthOrderNull) and the facade state machine
(constructor, clearCache, setOrder, setMaxTimeDiff, KPathCount,
extractKPaths).

Modelling conventions:
* node identifiers are strings, timestamps are integers;
* Python floats are modelled as rationals;
* Python sets are modelled as lists with first-occurrence insertion
  (addNew); Python dicts as insertion-ordered association lists (bump);
* defaultdict(list) state possible_path is a total function from nodes
  to lists of paths;
* raising ValueError / failing an assert is modelled with Except.
-/

namespace PyTempNets

abbrev Node := String
abbrev Edge := Node × Node
abbrev Path := List Node

/-- The temporal network collaborator, as used by HigherOrderNetwork:
an ordered list of timestamps, the per-timestamp edge list (tn.time),
the per-timestamp per-source outgoing edge lists (tn.sources) and the
separator string used for composite higher-order node names. -/
structure TempNet where
  ordered_times : List Int
  time : Int → List Edge
  sources : Int → Node → List Edge
  separator : String

/-- A finished k-path: the entry appended to the kpaths result list,
a dict with keys nodes and weight in the Python source. -/
structure KPath where
  nodes : Path
  weight : ℚ
deriving DecidableEq

/-- Python set .add modelled as first-occurrence insertion into a list. -/
def addNew (l : List Node) (x : Node) : List Node :=
  if x ∈ l then l else l ++ [x]

/-- Python dict statement u[key] = u.get(key, 0) + w on an
insertion-ordered association list. -/
def bump {α : Type} [DecidableEq α] (u : List (α × ℚ)) (key : α) (w : ℚ) :
    List (α × ℚ) :=
  match u with
  | [] => [(key, w)]
  | kv :: rest =>
      if kv.1 = key then (kv.1, kv.2 + w) :: rest
      else kv :: bump rest key w

/-- Number of entries of possible_path[src] that are full length-order
prefixes: len([i for i in possible_path[src] if len(i) == order]). -/
def Mcount (paths : List Path) (order : Nat) : Nat :=
  (paths.filter (fun q => q.length = order)).length

/-- State threaded through the inner loops of one anchor window:
possible_path, new_candidate_nodes and the per-node update dict. -/
structure WinState where
  pp : Node → List Path
  cand : List Node
  upd : List (Path × ℚ)

/-- Inner loop for path in possible_path[src] of __extract_k_paths,
for one window edge e = (src, dst): skip when path[-1] == dst, else
append path + [dst] to possible_path[dst], add dst to
new_candidate_nodes, and if the extension step is the last one and the
new path has order+1 nodes, add weight
1 / (len_new_edges * len([i for i in possible_path[src] if len(i) == order]))
into the update dict. The first list argument is the snapshot of
possible_path[src] taken when the edge starts being processed. -/
def extendPaths (order ck e_cnt : Nat) (src dst : Node) :
    List Path → WinState → WinState
  | [], st => st
  | p :: rest, st =>
      if p.getLast? = some dst then
        extendPaths order ck e_cnt src dst rest st
      else
        let np := p ++ [dst]
        let pp1 := fun y => if y = dst then st.pp y ++ [np] else st.pp y
        let cand1 := addNew st.cand dst
        let upd1 :=
          if ck + 1 = order ∧ np.length = order + 1 then
            bump st.upd np ((1 : ℚ) / ((e_cnt * Mcount (pp1 src) order : Nat) : ℚ))
          else st.upd
        extendPaths order ck e_cnt src dst rest ⟨pp1, cand1, upd1⟩

/-- Loop for e in new_edges of __extract_k_paths: each edge walks the
snapshot of possible_path[e[0]] taken at that point. -/
def processEdges (order ck e_cnt : Nat) :
    List Edge → WinState → WinState
  | [], st => st
  | e :: rest, st =>
      processEdges order ck e_cnt rest
        (extendPaths order ck e_cnt e.1 e.2 (st.pp e.1) st)

/-- new_edges of the extension step current_k for candidate node n:
all edges originating from n at times t+current_k, ..., t+current_k+dt-1. -/
def newEdgesFor (net : TempNet) (t : Int) (ck dt : Nat) (n : Node) : List Edge :=
  (List.range dt).flatMap (fun i => net.sources (t + ck + i) n)

/-- Body of the loop for node in candidate_nodes: process all new edges
of n with a fresh update dict, then flush the update dict into kpath
entries in insertion order. Returns the updated possible_path, the
accumulated new_candidate_nodes and the flushed entries. -/
def processNode (net : TempNet) (t : Int) (ck dt order : Nat)
    (pp : Node → List Path) (cand : List Node) (n : Node) :
    (Node → List Path) × List Node × List KPath :=
  let es := newEdgesFor net t ck dt n
  let st := processEdges order ck es.length es ⟨pp, cand, []⟩
  (st.pp, st.cand, st.upd.map (fun kv => ⟨kv.1, kv.2⟩))

/-- Loop for node in candidate_nodes of one extension step, appending
each node's flushed entries to the kpaths accumulator. -/
def processNodes (net : TempNet) (t : Int) (ck dt order : Nat) :
    List Node → (Node → List Path) → List Node → List KPath →
    (Node → List Path) × List Node × List KPath
  | [], pp, cand, acc => (pp, cand, acc)
  | n :: rest, pp, cand, acc =>
      let r := processNode net t ck dt order pp cand n
      processNodes net t ck dt order rest r.1 r.2.1 (acc ++ r.2.2)

/-- Loop for current_k in range(1, order): each step starts with a fresh
new_candidate_nodes accumulator, and the candidate set produced by one
step feeds the next. -/
def runSteps (net : TempNet) (t : Int) (dt order : Nat) :
    List Nat → (Node → List Path) → List Node → List KPath → List KPath
  | [], _, _, acc => acc
  | ck :: cks, pp, cand, acc =>
      let r := processNodes net t ck dt order cand pp [] acc
      runSteps net t dt order cks r.1 r.2.1 r.2.2

/-- Seeding loop (the case k == 0 of the source): every non self-loop
window edge (u, v) starts the length-1 prefix [u, v] stored at key v,
and v becomes a candidate node. -/
def seedEdges : List Edge → (Node → List Path) → List Node →
    ((Node → List Path) × List Node)
  | [], pp, cand => (pp, cand)
  | e :: rest, pp, cand =>
      if e.1 ≠ e.2 then
        seedEdges rest
          (fun y => if y = e.2 then pp y ++ [[e.1, e.2]] else pp y)
          (addNew cand e.2)
      else seedEdges rest pp cand

/-- current_edges of anchor t: all edges active at times t, ..., t+dt-1. -/
def windowEdges (net : TempNet) (t : Int) (dt : Nat) : List Edge :=
  (List.range dt).flatMap (fun i => net.time (t + i))

/-- One anchor window of __extract_k_paths: seed from the window edges,
then run the extension steps current_k = 1, ..., order-1. -/
def processWindow (net : TempNet) (t : Int) (dt order : Nat) : List KPath :=
  let s := seedEdges (windowEdges net t dt) (fun _ => []) []
  runSteps net t dt order (List.range' 1 (order - 1)) s.1 s.2 []

/-- Outer loop of __extract_k_paths over ordered_times, with the
next_valid_t anchor cursor (initialised to 0 in the source). -/
def extractLoop (net : TempNet) (dt order : Nat) :
    List Int → Int → List KPath
  | [], _ => []
  | t :: ts, nv =>
      if t < nv then extractLoop net dt order ts nv
      else processWindow net t dt order ++ extractLoop net dt order ts (t + dt)

/-- The private method __extract_k_paths(tmpNet, order, dt). -/
def extract (net : TempNet) (order dt : Nat) : List KPath :=
  extractLoop net dt order net.ordered_times 0

/-- A k-th order aggregate graph: named vertices and weighted directed
edges, as built by igraphKthOrder / igraphKthOrderNull. -/
structure HOGraph where
  vertices : List String
  edges : List ((String × String) × ℚ)
deriving DecidableEq

/-- Graph construction shared by igraphKthOrder and igraphKthOrderNull:
for every path, the first k nodes joined by the separator form the
source vertex, the nodes from index 1 on form the target vertex;
vertex duplicates are removed, edge weights are accumulated per
(source, target) key. -/
def graphOfPaths (paths : List KPath) (k : Nat) (sep : String) : HOGraph :=
  let r := paths.foldl
    (fun (st : List String × List ((String × String) × ℚ)) p =>
      let n1 := String.intercalate sep (p.nodes.take k)
      let n2 := String.intercalate sep (p.nodes.drop 1)
      (st.1 ++ [n1, n2], bump st.2 (n1, n2) p.weight))
    ([], [])
  ⟨r.1.foldl addNew [], r.2⟩

/-- The facade state: temporal network, order k, delta, and the cache
(kpaths list and kpcount, with -1 as the not-yet-extracted sentinel). -/
structure HON where
  tn : TempNet
  k : Int
  delta : Int
  kpaths : List KPath
  kpcount : Int

/-- HigherOrderNetwork.__init__(tempNet, order, maxTimeDiff): validates
order >= 1 and maxTimeDiff >= 1, then starts with an empty cache. -/
def HON.init (tn : TempNet) (order maxTimeDiff : Int) : Except String HON :=
  if order < 1 then .error "order must be >= 1"
  else if maxTimeDiff < 1 then .error "maxTimeDiff must be >= 1"
  else .ok ⟨tn, order, maxTimeDiff, [], -1⟩

/-- clearCache: resets kpaths and the count sentinel. -/
def HON.clearCache (h : HON) : HON :=
  { h with kpaths := [], kpcount := -1 }

/-- setMaxTimeDiff(delta): rejects delta < 1; on a genuinely new value
stores it and clears the cache; on an equal value does nothing. -/
def HON.setMaxTimeDiff (h : HON) (delta : Int) : Except String HON :=
  if delta < 1 then .error "maxTimeDiff must be >= 1"
  else if delta ≠ h.delta then .ok ({ h with delta := delta }.clearCache)
  else .ok h

/-- setOrder(k): rejects k < 1; on a genuinely new value stores it and
clears the cache; on an equal value does nothing. -/
def HON.setOrder (h : HON) (k : Int) : Except String HON :=
  if k < 1 then .error "order must be >= 1"
  else if k ≠ h.k then .ok ({ h with k := k }.clearCache)
  else .ok h

/-- resetMaxTimeDiff: setMaxTimeDiff with the default value 1. -/
def HON.resetMaxTimeDiff (h : HON) : Except String HON :=
  h.setMaxTimeDiff 1

/-- resetOrder: setOrder with the default value 1. -/
def HON.resetOrder (h : HON) : Except String HON :=
  h.setOrder 1

/-- KPathCount: returns the stored count field as is. -/
def HON.KPathCount (h : HON) : Int :=
  h.kpcount

/-- extractKPaths: runs __extract_k_paths with the stored order and
delta and stores the resulting list and its length. -/
def HON.extractKPaths (h : HON) : HON :=
  let ps := extract h.tn h.k.toNat h.delta.toNat
  { h with kpaths := ps, kpcount := ps.length }

/-- igraphKthOrder: asserts k > 1, lazily extracts k-paths when the
count sentinel is set, then builds the aggregate graph from the cached
paths. -/
def HON.igraphKthOrder (h : HON) : Except String (HON × HOGraph) :=
  if h.k ≤ 1 then .error "assert k > 1 failed"
  else
    let h1 := if h.kpcount = -1 then h.extractKPaths else h
    .ok (h1, graphOfPaths h1.kpaths h.k.toNat h.tn.separator)

/-- igraphKthOrderNull: asserts k > 1, re-runs __extract_k_paths with
dt = len(ordered_times) without touching the cache, and builds the
graph from that fresh path list. -/
def HON.igraphKthOrderNull (h : HON) : Except String (HON × HOGraph) :=
  if h.k ≤ 1 then .error "assert k > 1 failed"
  else
    .ok (h, graphOfPaths (extract h.tn h.k.toNat h.tn.ordered_times.length)
      h.k.toNat h.tn.separator)

/-- Derives the per-source lookup from a per-timestamp edge list, the
shape the external collaborator guarantees. -/
def sourcesOf (timeF : Int → List Edge) (t : Int) (n : Node) : List Edge :=
  (timeF t).filter (fun e => e.1 = n)

/-- Wellformedness of the collaborator: sources t n only lists edges
originating from n. -/
def SourcesConsistent (net : TempNet) : Prop :=
  ∀ t n e, e ∈ net.sources t n → e.1 = n

theorem sourcesConsistent_sourcesOf (times : List Int) (timeF : Int → List Edge)
    (sep : String) : SourcesConsistent ⟨times, timeF, sourcesOf timeF, sep⟩ := by
  intro t n e he
  have h2 := (List.mem_filter.mp he).2
  exact of_decide_eq_true h2

/-! Fixtures -/

/-- Fixture of the spec: edges (a,b) at 1, (b,c) at 2, (c,d) at 3. -/
def fixTime (t : Int) : List Edge :=
  if t = 1 then [("a", "b")]
  else if t = 2 then [("b", "c")]
  else if t = 3 then [("c", "d")]
  else []

def fixNet : TempNet := ⟨[1, 2, 3], fixTime, sourcesOf fixTime, ","⟩

def fixHON : HON := ⟨fixNet, 2, 1, [], -1⟩

/-- Stream with a gap between its two timestamps: edge (a,b) at 0 and
(b,c) at 3, with only two observed timestamps. -/
def sparseTime (t : Int) : List Edge :=
  if t = 0 then [("a", "b")]
  else if t = 3 then [("b", "c")]
  else []

def sparseNet : TempNet := ⟨[0, 3], sparseTime, sourcesOf sparseTime, ","⟩

def sparseHON : HON := ⟨sparseNet, 2, 4, [], -1⟩

/-- Stream in which the edge (b,c) is active at both times 2 and 3, so
that a window of width 2 anchored at 1 sees it twice. -/
def dupTime (t : Int) : List Edge :=
  if t = 1 then [("a", "b")]
  else if t = 2 then [("b", "c")]
  else if t = 3 then [("b", "c")]
  else []

def dupNet : TempNet := ⟨[1, 2, 3], dupTime, sourcesOf dupTime, ","⟩

/-- Stream with a self-loop (b,b) next to (b,c) in the extension window
of the prefix [a, b]. -/
def selfTime (t : Int) : List Edge :=
  if t = 1 then [("a", "b")]
  else if t = 2 then [("b", "b"), ("b", "c")]
  else []

def selfNet : TempNet := ⟨[1, 2], selfTime, sourcesOf selfTime, ","⟩

/-- Stream producing the identical path [a,b,c] in two distinct anchor
windows (anchored at 1 and at 11). -/
def twoWinTime (t : Int) : List Edge :=
  if t = 1 then [("a", "b")]
  else if t = 2 then [("b", "c")]
  else if t = 11 then [("a", "b")]
  else if t = 12 then [("b", "c")]
  else []

def twoWinNet : TempNet := ⟨[1, 2, 11, 12], twoWinTime, sourcesOf twoWinTime, ","⟩

/-! Helper lemmas -/

theorem extractLoop_order_one (net : TempNet) (dt : Nat) (ts : List Int) :
    ∀ nv : Int, extractLoop net dt 1 ts nv = [] := by
  induction ts with
  | nil => intro nv; rfl
  | cons t ts ih =>
      intro nv
      by_cases h : t < nv
      · simpa [extractLoop, h] using ih nv
      · have hw : processWindow net t dt 1 = [] := rfl
        simp [extractLoop, h, hw, ih (t + dt)]

/-- Value lookup in an update dict, 0 for a missing key (matching
u.get(key, 0) in the source). -/
def wlookup : List (Path × ℚ) → Path → ℚ
  | [], _ => 0
  | kv :: rest, q => if kv.1 = q then kv.2 else wlookup rest q

/-- Sum of all values of an update dict. -/
def wsum (u : List (Path × ℚ)) : ℚ := (u.map Prod.snd).sum

/-- Keys of an update dict. -/
def updKeys (u : List (Path × ℚ)) : List Path := u.map Prod.fst

theorem wlookup_bump (u : List (Path × ℚ)) (k : Path) (w : ℚ) (q : Path) :
    wlookup (bump u k w) q = wlookup u q + (if q = k then w else 0) := by
  induction u with
  | nil =>
      by_cases hq : q = k
      · subst hq; simp [bump, wlookup]
      · have hq2 : ¬ k = q := fun h => hq h.symm
        simp [bump, wlookup, hq, hq2]
  | cons kv rest ih =>
      by_cases h1 : kv.1 = k
      · by_cases h2 : kv.1 = q
        · have hqk : q = k := h2 ▸ h1
          simp [bump, wlookup, h1, h2, hqk]
        · have hqk : ¬ q = k := fun h => h2 (h1.symm ▸ h.symm ▸ rfl)
          have hkq : ¬ k = q := fun h => hqk h.symm
          simp [bump, wlookup, h1, h2, hqk, hkq]
      · by_cases h2 : kv.1 = q
        · have hqk : ¬ q = k := fun h => h1 (h ▸ h2)
          simp [bump, wlookup, h1, h2, hqk]
        · simp [bump, wlookup, h1, h2, ih]

theorem wsum_bump (u : List (Path × ℚ)) (k : Path) (w : ℚ) :
    wsum (bump u k w) = wsum u + w := by
  induction u with
  | nil => simp [bump, wsum]
  | cons kv rest ih =>
      by_cases h1 : kv.1 = k
      · simp [bump, wsum, h1]; ring
      · simp only [bump, wsum, if_neg h1, List.map_cons, List.sum_cons] at ih ⊢
        rw [ih]; ring

theorem updKeys_bump (u : List (Path × ℚ)) (k : Path) (w : ℚ) :
    updKeys (bump u k w) =
      if k ∈ updKeys u then updKeys u else updKeys u ++ [k] := by
  induction u with
  | nil => simp [bump, updKeys]
  | cons kv rest ih =>
      by_cases h1 : kv.1 = k
      · simp [bump, updKeys, h1]
      · have h1s : ¬ k = kv.1 := fun h => h1 h.symm
        simp only [bump, if_neg h1, updKeys, List.map_cons]
        simp only [updKeys] at ih
        rw [ih]
        by_cases h2 : k ∈ List.map Prod.fst rest
        · simp [h2]
        · simp [h2, h1s]

theorem updKeys_bump_nodup (u : List (Path × ℚ)) (k : Path) (w : ℚ)
    (h : (updKeys u).Nodup) : (updKeys (bump u k w)).Nodup := by
  rw [updKeys_bump]
  split
  · exact h
  · rw [← List.concat_eq_append]
    exact List.Nodup.concat (by assumption) h

theorem mem_updKeys {u : List (Path × ℚ)} {q : Path} {w : ℚ}
    (h : (q, w) ∈ u) : q ∈ updKeys u :=
  List.mem_map_of_mem Prod.fst h

theorem wlookup_eq_of_mem {u : List (Path × ℚ)} {q : Path} {w : ℚ}
    (hnd : (updKeys u).Nodup) (hmem : (q, w) ∈ u) : wlookup u q = w := by
  induction u with
  | nil => cases hmem
  | cons kv rest ih =>
      rcases List.mem_cons.mp hmem with h | h
      · subst h
        simp [wlookup]
      · have hnd2 : (updKeys rest).Nodup := (List.nodup_cons.mp hnd).2
        have hne : kv.1 ≠ q := by
          intro hq
          exact (List.nodup_cons.mp hnd).1 (hq ▸ mem_updKeys h)
        simp [wlookup, hne, ih hnd2 h]

/-- Emission predicate: the snapshot prefix p, extended by dst, is not
skipped, has maximal length and yields exactly the node sequence q. -/
def emitPred (dst : Node) (order : Nat) (q : Path) (p : Path) : Bool :=
  decide (¬ p.getLast? = some dst ∧ p.length = order ∧ p ++ [dst] = q)

/-- As emitPred but ignoring the produced sequence. -/
def stepPred (dst : Node) (order : Nat) (p : Path) : Bool :=
  decide (¬ p.getLast? = some dst ∧ p.length = order)

/-- The weight 1 / (E * M) of a single emission. -/
def unitWeight (e_cnt m : Nat) : ℚ :=
  (1 : ℚ) / ((e_cnt * m : Nat) : ℚ)

/-- Number of (edge occurrence, snapshot prefix) pairs producing the
node sequence q during one node's processing at the final step. -/
def contribCount (es : List Edge) (paths : List Path) (order : Nat)
    (q : Path) : Nat :=
  (es.map (fun e => paths.countP (emitPred e.2 order q))).sum

theorem extendPaths_final (order ck e_cnt : Nat) (n dst : Node)
    (hck : ck + 1 = order) (paths : List Path) (st : WinState)
    (h_end : ∀ p ∈ paths, p.getLast? = some n) :
    (extendPaths order ck e_cnt n dst paths st).pp n = st.pp n ∧
    (∀ q, wlookup (extendPaths order ck e_cnt n dst paths st).upd q =
      wlookup st.upd q + (paths.countP (emitPred dst order q) : ℚ) *
        unitWeight e_cnt (Mcount (st.pp n) order)) ∧
    ((updKeys st.upd).Nodup →
      (updKeys (extendPaths order ck e_cnt n dst paths st).upd).Nodup) ∧
    (∀ q, q ∈ updKeys (extendPaths order ck e_cnt n dst paths st).upd →
      q ∈ updKeys st.upd ∨ 0 < paths.countP (emitPred dst order q)) ∧
    wsum (extendPaths order ck e_cnt n dst paths st).upd =
      wsum st.upd + (paths.countP (stepPred dst order) : ℚ) *
        unitWeight e_cnt (Mcount (st.pp n) order) := by
  induction paths generalizing st with
  | nil =>
      refine ⟨rfl, fun q => ?_, fun h => h, fun q hq => Or.inl hq, ?_⟩
      · simp [extendPaths, List.countP_nil]
      · simp [extendPaths, List.countP_nil]
  | cons p rest ih =>
      have hpn : p.getLast? = some n := h_end p (List.mem_cons_self p rest)
      have h_end2 : ∀ p2 ∈ rest, p2.getLast? = some n :=
        fun p2 hp2 => h_end p2 (List.mem_cons_of_mem _ hp2)
      by_cases hskip : p.getLast? = some dst
      · have hpredq : ∀ q, emitPred dst order q p = false := by
          intro q; simp [emitPred, hskip]
        have hpred2 : stepPred dst order p = false := by
          simp [stepPred, hskip]
        have hE : extendPaths order ck e_cnt n dst (p :: rest) st =
            extendPaths order ck e_cnt n dst rest st := by
          rw [extendPaths, if_pos hskip]
        have hrec := ih st h_end2
        rw [hE]
        refine ⟨hrec.1, fun q => ?_, hrec.2.2.1, fun q hq => ?_, ?_⟩
        · rw [hrec.2.1 q, List.countP_cons]
          simp [hpredq q]
        · rcases hrec.2.2.2.1 q hq with h | h
          · exact Or.inl h
          · right
            rw [List.countP_cons]
            simp only [hpredq q]
            simpa using h
        · rw [hrec.2.2.2.2, List.countP_cons]
          simp [hpred2]
      · have hdn : ¬ n = dst := fun h => hskip (by rw [hpn, h])
        by_cases hlen : p.length = order
        · -- emitting extension
          have hcond : ck + 1 = order ∧ (p ++ [dst]).length = order + 1 :=
            ⟨hck, by simp [hlen]⟩
          have hE : extendPaths order ck e_cnt n dst (p :: rest) st =
              extendPaths order ck e_cnt n dst rest
                ⟨fun y => if y = dst then st.pp y ++ [p ++ [dst]] else st.pp y,
                 addNew st.cand dst,
                 bump st.upd (p ++ [dst])
                   (unitWeight e_cnt (Mcount (st.pp n) order))⟩ := by
            rw [extendPaths, if_neg hskip]
            simp only [if_pos hcond, unitWeight]
            simp [hdn]
          have hpred : ∀ q, emitPred dst order q p = decide (p ++ [dst] = q) := by
            intro q; simp [emitPred, hskip, hlen]
          have hpred2 : stepPred dst order p = true := by
            simp [stepPred, hskip, hlen]
          have hrec := ih ⟨fun y => if y = dst then st.pp y ++ [p ++ [dst]] else st.pp y,
            addNew st.cand dst,
            bump st.upd (p ++ [dst]) (unitWeight e_cnt (Mcount (st.pp n) order))⟩ h_end2
          have hpp : (fun y => if y = dst then st.pp y ++ [p ++ [dst]] else st.pp y) n
              = st.pp n := by simp [hdn]
          rw [hE]
          simp only [hpp] at hrec
          refine ⟨hrec.1, fun q => ?_, fun hnd => hrec.2.2.1 (updKeys_bump_nodup _ _ _ hnd),
            fun q hq => ?_, ?_⟩
          · rw [hrec.2.1 q, wlookup_bump, List.countP_cons, hpred q]
            by_cases hq : p ++ [dst] = q
            · have hq2 : q = p ++ [dst] := hq.symm
              rw [if_pos hq2, if_pos (show (decide (p ++ [dst] = q)) = true by simp [hq])]
              push_cast
              ring
            · have hq2 : ¬ q = p ++ [dst] := fun h => hq h.symm
              rw [if_neg hq2, if_neg (show ¬ (decide (p ++ [dst] = q)) = true by simp [hq])]
              push_cast
              ring
          · rcases hrec.2.2.2.1 q hq with h | h
            · rw [updKeys_bump] at h
              by_cases hmem : (p ++ [dst]) ∈ updKeys st.upd
              · rw [if_pos hmem] at h
                exact Or.inl h
              · rw [if_neg hmem] at h
                rcases List.mem_append.mp h with h2 | h2
                · exact Or.inl h2
                · right
                  have hq3 : p ++ [dst] = q := (List.mem_singleton.mp h2).symm
                  rw [List.countP_cons, hpred q, hq3]
                  rw [if_pos (show (decide (q = q)) = true by simp)]
                  omega
            · right
              rw [List.countP_cons]
              have : 0 < rest.countP (emitPred dst order q) := h
              omega
          · rw [hrec.2.2.2.2, wsum_bump, List.countP_cons, hpred2,
              if_pos (rfl : (true : Bool) = true)]
            push_cast
            ring
        · -- non-emitting extension
          have hcond : ¬ (ck + 1 = order ∧ (p ++ [dst]).length = order + 1) := by
            intro hc
            apply hlen
            have := hc.2
            simp only [List.length_append, List.length_singleton] at this
            omega
          have hE : extendPaths order ck e_cnt n dst (p :: rest) st =
              extendPaths order ck e_cnt n dst rest
                ⟨fun y => if y = dst then st.pp y ++ [p ++ [dst]] else st.pp y,
                 addNew st.cand dst, st.upd⟩ := by
            rw [extendPaths, if_neg hskip]
            have hcond3 : ¬ (ck + 1 = order ∧ p.length = order) :=
              fun hc => hlen hc.2
            simp [hcond3]
          have hpredq : ∀ q, emitPred dst order q p = false := by
            intro q; simp [emitPred, hlen]
          have hpred2 : stepPred dst order p = false := by
            simp [stepPred, hlen]
          have hrec := ih ⟨fun y => if y = dst then st.pp y ++ [p ++ [dst]] else st.pp y,
            addNew st.cand dst, st.upd⟩ h_end2
          have hpp : (fun y => if y = dst then st.pp y ++ [p ++ [dst]] else st.pp y) n
              = st.pp n := by simp [hdn]
          rw [hE]
          simp only [hpp] at hrec
          refine ⟨hrec.1, fun q => ?_, hrec.2.2.1, fun q hq => ?_, ?_⟩
          · rw [hrec.2.1 q, List.countP_cons]
            simp [hpredq q]
          · rcases hrec.2.2.2.1 q hq with h | h
            · exact Or.inl h
            · right
              rw [List.countP_cons]
              omega
          · rw [hrec.2.2.2.2, List.countP_cons]
            simp [hpred2]

theorem Mcount_cons (p : Path) (rest : List Path) (order : Nat) :
    Mcount (p :: rest) order =
      Mcount rest order + if p.length = order then 1 else 0 := by
  by_cases h : p.length = order
  · simp [Mcount, List.filter_cons, h]
  · simp [Mcount, List.filter_cons, h]

theorem countP_stepPred (paths : List Path) (n dst : Node) (order : Nat)
    (h_end : ∀ p ∈ paths, p.getLast? = some n) :
    paths.countP (stepPred dst order) =
      if dst = n then 0 else Mcount paths order := by
  induction paths with
  | nil => simp [Mcount]
  | cons p rest ih =>
      have hpn : p.getLast? = some n := h_end p (List.mem_cons_self p rest)
      have ih2 := ih (fun p2 hp2 => h_end p2 (List.mem_cons_of_mem _ hp2))
      rw [List.countP_cons, ih2, Mcount_cons]
      by_cases hd : dst = n
      · subst hd
        have hfalse : stepPred dst order p = false := by
          rw [stepPred]
          simp [hpn]
        simp [hfalse]
      · have hnd : ¬ p.getLast? = some dst := by
          rw [hpn]
          intro hcon
          exact hd (Option.some.inj hcon).symm
        by_cases hl : p.length = order
        · have htrue : stepPred dst order p = true := by
            simp [stepPred, hnd, hl]
          simp [htrue, hd, hl]
        · have hfalse : stepPred dst order p = false := by
            simp [stepPred, hl]
          simp [hfalse, hd, hl]

theorem contribCount_cons (e : Edge) (rest : List Edge) (paths : List Path)
    (order : Nat) (q : Path) :
    contribCount (e :: rest) paths order q =
      paths.countP (emitPred e.2 order q) + contribCount rest paths order q := by
  simp [contribCount]

theorem contribCount_pos_shape {es : List Edge} {paths : List Path}
    {order : Nat} {q : Path} {n : Node}
    (h_end : ∀ p ∈ paths, p.getLast? = some n)
    (h : 0 < contribCount es paths order q) :
    q.length = order + 1 ∧ q.dropLast.getLast? = some n := by
  induction es with
  | nil => simp [contribCount] at h
  | cons e rest ih =>
      rw [contribCount_cons] at h
      by_cases h1 : 0 < paths.countP (emitPred e.2 order q)
      · rcases List.countP_pos_iff.mp h1 with ⟨p, hp, hpred⟩
        rw [emitPred, decide_eq_true_eq] at hpred
        rcases hpred with ⟨-, hplen, hpq⟩
        subst hpq
        constructor
        · simp [hplen]
        · rw [List.dropLast_concat]
          exact h_end p hp
      · exact ih (by omega)

theorem Mcount_pos_of_contrib {es : List Edge} {paths : List Path}
    {order : Nat} {q : Path}
    (h : 0 < contribCount es paths order q) : 0 < Mcount paths order := by
  induction es with
  | nil => simp [contribCount] at h
  | cons e rest ih =>
      rw [contribCount_cons] at h
      by_cases h1 : 0 < paths.countP (emitPred e.2 order q)
      · rcases List.countP_pos_iff.mp h1 with ⟨p, hp, hpred⟩
        rw [emitPred, decide_eq_true_eq] at hpred
        rcases hpred with ⟨-, hplen, -⟩
        rw [Mcount, ← List.countP_eq_length_filter]
        exact List.countP_pos_iff.mpr ⟨p, hp, by simp [hplen]⟩
      · exact ih (by omega)

theorem processEdges_final (order ck e_cnt : Nat) (n : Node)
    (hck : ck + 1 = order) (es : List Edge) (st : WinState)
    (hsrc : ∀ e ∈ es, e.1 = n)
    (h_end : ∀ p ∈ st.pp n, p.getLast? = some n) :
    (processEdges order ck e_cnt es st).pp n = st.pp n ∧
    (∀ q, wlookup (processEdges order ck e_cnt es st).upd q =
      wlookup st.upd q + (contribCount es (st.pp n) order q : ℚ) *
        unitWeight e_cnt (Mcount (st.pp n) order)) ∧
    ((updKeys st.upd).Nodup →
      (updKeys (processEdges order ck e_cnt es st).upd).Nodup) ∧
    (∀ q, q ∈ updKeys (processEdges order ck e_cnt es st).upd →
      q ∈ updKeys st.upd ∨ 0 < contribCount es (st.pp n) order q) ∧
    wsum (processEdges order ck e_cnt es st).upd =
      wsum st.upd +
        ((es.countP (fun e => decide (¬ e.2 = n)) * Mcount (st.pp n) order : Nat) : ℚ) *
          unitWeight e_cnt (Mcount (st.pp n) order) := by
  induction es generalizing st with
  | nil =>
      refine ⟨rfl, fun q => ?_, fun h => h, fun q hq => Or.inl hq, ?_⟩
      · simp [processEdges, contribCount]
      · simp [processEdges]
  | cons e rest ih =>
      have hen : e.1 = n := hsrc e (List.mem_cons_self e rest)
      have hsrc2 : ∀ e2 ∈ rest, e2.1 = n :=
        fun e2 he2 => hsrc e2 (List.mem_cons_of_mem _ he2)
      have hE : processEdges order ck e_cnt (e :: rest) st =
          processEdges order ck e_cnt rest
            (extendPaths order ck e_cnt n e.2 (st.pp n) st) := by
        rw [processEdges, hen]
      have hext := extendPaths_final order ck e_cnt n e.2 hck (st.pp n) st h_end
      have h_end1 : ∀ p ∈ (extendPaths order ck e_cnt n e.2 (st.pp n) st).pp n,
          p.getLast? = some n := by
        rw [hext.1]; exact h_end
      have hrec := ih (extendPaths order ck e_cnt n e.2 (st.pp n) st) hsrc2 h_end1
      rw [hE]
      simp only [hext.1] at hrec
      refine ⟨hrec.1, fun q => ?_, fun hnd => hrec.2.2.1 (hext.2.2.1 hnd),
        fun q hq => ?_, ?_⟩
      · rw [hrec.2.1 q, hext.2.1 q, contribCount_cons]
        push_cast
        ring
      · rcases hrec.2.2.2.1 q hq with h | h
        · rcases hext.2.2.2.1 q h with h2 | h2
          · exact Or.inl h2
          · right
            rw [contribCount_cons]
            omega
        · right
          rw [contribCount_cons]
          omega
      · rw [hrec.2.2.2.2, hext.2.2.2.2, List.countP_cons,
          countP_stepPred (st.pp n) n e.2 order h_end]
        by_cases he2 : e.2 = n
        · have hb : (decide (¬ e.2 = n)) = false := by simp [he2]
          rw [if_pos he2, hb, if_neg (by simp : ¬ (false : Bool) = true)]
          push_cast
          ring
        · have hb : (decide (¬ e.2 = n)) = true := by simp [he2]
          rw [if_neg he2, hb, if_pos (rfl : (true : Bool) = true)]
          push_cast
          ring

/-! Claim theorems -/

/-- C1: on the fixture with timestamps 1,2,3, edges (a,b) at 1, (b,c)
at 2, (c,d) at 3, delta 1 and order 2, extraction returns exactly the
paths [a,b,c] and [b,c,d] with weight 1 each, and the order-2 graph
with separator comma has vertex set a,b / b,c / c,d and exactly the
edges (a,b)->(b,c) and (b,c)->(c,d) with weight 1 each. -/
theorem c1_fixture_paths_and_graph :
    (HON.igraphKthOrder fixHON).toOption.map
      (fun p => (p.1.kpaths, p.2.vertices.toFinset, p.2.edges)) =
    some ([⟨["a", "b", "c"], 1⟩, ⟨["b", "c", "d"], 1⟩],
      ({"a,b", "b,c", "c,d"} : Finset String),
      [(("a,b", "b,c"), 1), (("b,c", "c,d"), 1)]) := by
  with_unfolding_all decide

/-- C3 counterexample: on the stream with only the two timestamps 0 and
3 (edge (a,b) at 0, edge (b,c) at 3) and delta 4, the bounded graph has
the edge (a,b)->(b,c), but the null model re-extracts with
dt = len(ordered_times) = 2 - a value that does not span the
observation period 3 - and its graph has no edges at all, so it does
not contain the bounded graph. -/
theorem c3_counterexample :
    (HON.igraphKthOrder sparseHON).toOption.map (fun p => p.2.edges) =
      some [(("a,b", "b,c"), 1)] ∧
    (HON.igraphKthOrderNull sparseHON).toOption.map (fun p => p.2.edges) =
      some [] ∧
    sparseNet.ordered_times.length = 2 ∧
    extract sparseNet 2 3 = [⟨["a", "b", "c"], 1⟩] := by
  refine ⟨by with_unfolding_all decide, by with_unfolding_all decide,
    by decide, by with_unfolding_all decide⟩

/-- C3 amended: igraphKthOrderNull re-runs extraction with delta
replaced by len(ordered_times), the number of observed timestamps (not
by the observation span), leaving the cache untouched; on the spec
fixture the resulting null-model edge set does contain every edge of
the bounded delta-1 graph. -/
theorem c3_amended :
    (∀ h : HON, 1 < h.k →
      h.igraphKthOrderNull = .ok (h,
        graphOfPaths (extract h.tn h.k.toNat h.tn.ordered_times.length)
          h.k.toNat h.tn.separator)) ∧
    (∀ e ∈ (graphOfPaths (extract fixNet 2 1) 2 ",").edges,
      e ∈ (graphOfPaths (extract fixNet 2 3) 2 ",").edges) := by
  constructor
  · intro h hk
    have hne : ¬ h.k ≤ 1 := by omega
    simp [HON.igraphKthOrderNull, hne]
  · with_unfolding_all decide

/-- C3 witness: the amended statement applied to the fixture facade. -/
theorem c3_witness :
    HON.igraphKthOrderNull fixHON = .ok (fixHON,
      graphOfPaths (extract fixNet 2 3) 2 ",") := by
  exact c3_amended.1 fixHON (by decide)

/-- C4 counterexample: on a freshly constructed facade the cache is
empty (count is the -1 sentinel), yet KPathCount returns -1 as is - it
does not trigger extraction, although extraction would give count 2. -/
theorem c4_counterexample :
    fixHON.kpcount = -1 ∧
    HON.KPathCount fixHON = -1 ∧
    (HON.extractKPaths fixHON).kpcount = 2 ∧
    ((-1 : Int) ≠ 2) := by
  refine ⟨rfl, rfl, by with_unfolding_all decide, by decide⟩

/-- C4 amended: the graph builder igraphKthOrder, when it finds the
count sentinel, runs extraction synchronously and populates the cache
before returning (so its result is never based on the empty cache),
while KPathCount simply returns the stored count, sentinel included,
without triggering extraction. -/
theorem c4_amended (h : HON) (hk : 1 < h.k) (hc : h.kpcount = -1) :
    HON.KPathCount h = h.kpcount ∧
    h.igraphKthOrder = .ok (h.extractKPaths,
      graphOfPaths h.extractKPaths.kpaths h.k.toNat h.tn.separator) ∧
    h.extractKPaths.kpaths = extract h.tn h.k.toNat h.delta.toNat ∧
    h.extractKPaths.kpcount = (extract h.tn h.k.toNat h.delta.toNat).length ∧
    h.extractKPaths.kpcount ≠ -1 := by
  have hne : ¬ h.k ≤ 1 := by omega
  refine ⟨rfl, ?_, rfl, rfl, ?_⟩
  · simp [HON.igraphKthOrder, hne, hc]
  · have : (0 : Int) ≤ (extract h.tn h.k.toNat h.delta.toNat).length := by
      exact_mod_cast Int.natCast_nonneg _
    show ((extract h.tn h.k.toNat h.delta.toNat).length : Int) ≠ -1
    omega

/-- C4 witness: the amended statement applied to the fixture facade. -/
theorem c4_witness :
    HON.KPathCount fixHON = fixHON.kpcount ∧
    fixHON.igraphKthOrder = .ok (fixHON.extractKPaths,
      graphOfPaths fixHON.extractKPaths.kpaths fixHON.k.toNat
        fixHON.tn.separator) ∧
    fixHON.extractKPaths.kpaths = extract fixHON.tn fixHON.k.toNat
      fixHON.delta.toNat ∧
    fixHON.extractKPaths.kpcount = (extract fixHON.tn fixHON.k.toNat
      fixHON.delta.toNat).length ∧
    fixHON.extractKPaths.kpcount ≠ -1 :=
  c4_amended fixHON (by decide) rfl

/-- C5: the constructor and both setters reject order and delta values
below 1 with an immediate validation failure; a setter given a valid
value different from the current one stores it and empties the cache;
a setter given the current value changes no state at all. -/
theorem c5_validation (tn : TempNet) (h : HON) (k d : Int) :
    (k < 1 → HON.init tn k d = .error "order must be >= 1") ∧
    (1 ≤ k → d < 1 → HON.init tn k d = .error "maxTimeDiff must be >= 1") ∧
    (1 ≤ k → 1 ≤ d → HON.init tn k d = .ok ⟨tn, k, d, [], -1⟩) ∧
    (k < 1 → h.setOrder k = .error "order must be >= 1") ∧
    (d < 1 → h.setMaxTimeDiff d = .error "maxTimeDiff must be >= 1") ∧
    (1 ≤ k → k ≠ h.k → h.setOrder k = .ok ⟨h.tn, k, h.delta, [], -1⟩) ∧
    (1 ≤ k → k = h.k → h.setOrder k = .ok h) ∧
    (1 ≤ d → d ≠ h.delta → h.setMaxTimeDiff d = .ok ⟨h.tn, h.k, d, [], -1⟩) ∧
    (1 ≤ d → d = h.delta → h.setMaxTimeDiff d = .ok h) := by
  refine ⟨?_, ?_, ?_, ?_, ?_, ?_, ?_, ?_, ?_⟩
  · intro hk; simp [HON.init, hk]
  · intro hk hd
    have hk1 : ¬ k < 1 := by omega
    simp [HON.init, hk1, hd]
  · intro hk hd
    have hk1 : ¬ k < 1 := by omega
    have hd1 : ¬ d < 1 := by omega
    simp [HON.init, hk1, hd1]
  · intro hk; simp [HON.setOrder, hk]
  · intro hd; simp [HON.setMaxTimeDiff, hd]
  · intro hk hne
    have hk1 : ¬ k < 1 := by omega
    simp [HON.setOrder, hk1, hne, HON.clearCache]
  · intro hk heq
    rw [heq] at hk ⊢
    have hk1 : ¬ h.k < 1 := by omega
    simp [HON.setOrder, hk1]
  · intro hd hne
    have hd1 : ¬ d < 1 := by omega
    simp [HON.setMaxTimeDiff, hd1, hne, HON.clearCache]
  · intro hd heq
    rw [heq] at hd ⊢
    have hd1 : ¬ h.delta < 1 := by omega
    simp [HON.setMaxTimeDiff, hd1]

/-- C5 witness: the validation and transition behaviour at concrete
inputs (invalid order 0, a genuinely new order 3, and the unchanged
order 2) on the fixture facade. -/
theorem c5_witness :
    HON.init fixNet 0 1 = .error "order must be >= 1" ∧
    fixHON.setOrder 3 = .ok ⟨fixNet, 3, 1, [], -1⟩ ∧
    fixHON.setOrder 2 = .ok fixHON := by
  refine ⟨(c5_validation fixNet fixHON 0 1).1 (by decide), ?_, ?_⟩
  · exact (c5_validation fixNet fixHON 3 1).2.2.2.2.2.1 (by decide) (by decide)
  · exact (c5_validation fixNet fixHON 2 1).2.2.2.2.2.2.1 (by decide) rfl

/-- C9: at order 1 the extension loop body never runs, so extraction
returns the empty list on every input stream, and after an explicit
extractKPaths call the stored path count is 0. -/
theorem c9_order_one_empty :
    (∀ (net : TempNet) (dt : Nat), extract net 1 dt = []) ∧
    (∀ h : HON, h.k = 1 →
      h.extractKPaths.kpaths = [] ∧ h.extractKPaths.kpcount = 0) := by
  constructor
  · intro net dt
    exact extractLoop_order_one net dt net.ordered_times 0
  · intro h hk
    have hp : extract h.tn h.k.toNat h.delta.toNat = [] := by
      rw [hk]
      exact extractLoop_order_one h.tn h.delta.toNat h.tn.ordered_times 0
    constructor
    · show extract h.tn h.k.toNat h.delta.toNat = []
      exact hp
    · show ((extract h.tn h.k.toNat h.delta.toNat).length : Int) = 0
      rw [hp]; rfl

/-- C9 witness: extraction at order 1 on the fixture stream. -/
theorem c9_witness :
    extract fixNet 1 1 = [] ∧
    (⟨fixNet, 1, 1, [], -1⟩ : HON).extractKPaths.kpcount = 0 :=
  ⟨c9_order_one_empty.1 fixNet 1,
    (c9_order_one_empty.2 ⟨fixNet, 1, 1, [], -1⟩ rfl).2⟩

/-- Cache consistency: the stored count is the -1 sentinel or exactly
the length of the stored path list. -/
def cacheInv (h : HON) : Prop :=
  h.kpcount = -1 ∨ h.kpcount = h.kpaths.length

/-- C10: every facade operation preserves cache consistency: the
constructor and clearCache establish the sentinel state with an empty
list, extractKPaths establishes the populated state, the setters either
clear the cache or leave it alone, the graph builder keeps it
consistent, and the null-model builder does not touch the cache. -/
theorem c10_cache_invariant (tn : TempNet) (h : HON) (k d : Int) :
    (∀ h0, HON.init tn k d = .ok h0 → h0.kpcount = -1 ∧ h0.kpaths = []) ∧
    (h.clearCache.kpcount = -1 ∧ h.clearCache.kpaths = []) ∧
    (h.extractKPaths.kpcount = h.extractKPaths.kpaths.length) ∧
    (∀ h1, cacheInv h → h.setOrder k = .ok h1 → cacheInv h1) ∧
    (∀ h1, cacheInv h → h.setMaxTimeDiff d = .ok h1 → cacheInv h1) ∧
    (∀ h1, cacheInv h → h.resetOrder = .ok h1 → cacheInv h1) ∧
    (∀ h1, cacheInv h → h.resetMaxTimeDiff = .ok h1 → cacheInv h1) ∧
    (∀ h1 g, cacheInv h → h.igraphKthOrder = .ok (h1, g) → cacheInv h1) ∧
    (∀ h1 g, h.igraphKthOrderNull = .ok (h1, g) →
      h1.kpaths = h.kpaths ∧ h1.kpcount = h.kpcount) := by
  have hset : ∀ (h1 : HON) (k1 : Int), cacheInv h → h.setOrder k1 = .ok h1 →
      cacheInv h1 := by
    intro h1 k1 hinv heq
    rw [HON.setOrder] at heq
    split at heq
    · exact absurd heq (by simp)
    · split at heq
      · cases heq with
        | refl => exact Or.inl rfl
      · cases heq with
        | refl => exact hinv
  have hsetd : ∀ (h1 : HON) (d1 : Int), cacheInv h → h.setMaxTimeDiff d1 = .ok h1 →
      cacheInv h1 := by
    intro h1 d1 hinv heq
    rw [HON.setMaxTimeDiff] at heq
    split at heq
    · exact absurd heq (by simp)
    · split at heq
      · cases heq with
        | refl => exact Or.inl rfl
      · cases heq with
        | refl => exact hinv
  refine ⟨?_, ⟨rfl, rfl⟩, ?_, ?_, ?_, ?_, ?_, ?_, ?_⟩
  · intro h0 heq
    rw [HON.init] at heq
    split at heq
    · exact absurd heq (by simp)
    · split at heq
      · exact absurd heq (by simp)
      · cases heq with
        | refl => exact ⟨rfl, rfl⟩
  · show ((extract h.tn h.k.toNat h.delta.toNat).length : Int) = _
    rfl
  · intro h1; exact hset h1 k
  · intro h1; exact hsetd h1 d
  · intro h1; exact hset h1 1
  · intro h1; exact hsetd h1 1
  · intro h1 g hinv heq
    rw [HON.igraphKthOrder] at heq
    split at heq
    · exact absurd heq (by simp)
    · simp only [Except.ok.injEq, Prod.mk.injEq] at heq
      rcases heq with ⟨heq1, -⟩
      subst heq1
      split
      · exact Or.inr rfl
      · exact hinv
  · intro h1 g heq
    rw [HON.igraphKthOrderNull] at heq
    split at heq
    · exact absurd heq (by simp)
    · simp only [Except.ok.injEq, Prod.mk.injEq] at heq
      rcases heq with ⟨heq1, -⟩
      subst heq1
      exact ⟨rfl, rfl⟩

/-- C10 witness: cache consistency transported across a concrete
setOrder call on the fixture facade. -/
theorem c10_witness : cacheInv (⟨fixNet, 3, 1, [], -1⟩ : HON) :=
  (c10_cache_invariant fixNet fixHON 3 1).2.2.2.1 ⟨fixNet, 3, 1, [], -1⟩
    (Or.inl rfl) rfl

/-- Seeding state of the anchor window at time 1 of dupNet (delta 2). -/
def dupSeed : (Node → List Path) × List Node :=
  seedEdges (windowEdges dupNet 1 2) (fun _ => []) []

/-- Seeding state of the anchor window at time 1 of selfNet (delta 1). -/
def selfSeed : (Node → List Path) × List Node :=
  seedEdges (windowEdges selfNet 1 1) (fun _ => []) []

/-- Seeding state of the anchor window at time 1 of fixNet (delta 1). -/
def fixSeed : (Node → List Path) × List Node :=
  seedEdges (windowEdges fixNet 1 1) (fun _ => []) []

/-- C2 counterexample: in dupNet the edge (b,c) occurs twice inside the
window of the final step anchored at 1, so E = 2 and M = 1, yet the
extractor emits [a,b,c] with weight 1, not 1 / (E * M) = 1 / 2: the two
duplicate contributions were summed into the emitted weight. -/
theorem c2_counterexample :
    extract dupNet 2 2 = [⟨["a", "b", "c"], 1⟩] ∧
    (newEdgesFor dupNet 1 1 2 "b").length = 2 ∧
    Mcount (dupSeed.1 "b") 2 = 1 ∧
    ((1 : ℚ) ≠ (1 : ℚ) / ((2 * 1 : Nat) : ℚ)) := by
  refine ⟨by with_unfolding_all decide, by decide, by decide,
    by with_unfolding_all decide⟩

/-- C2 amended: every KPath emitted while processing origin node n at
the final extension step has weight c / (E * M), where E is the number
of outgoing edges available from n in that step's window, M is the
number of competing live prefixes of maximal length order terminating
at n, and c is the positive number of (edge occurrence, prefix) pairs
that produce the path's node sequence; the weight is 1 / (E * M)
exactly when that sequence arises from a single pair. -/
theorem c2_amended_weight_rule (net : TempNet) (t : Int) (ck dt order : Nat)
    (n : Node) (pp : Node → List Path) (cand : List Node)
    (hck : ck + 1 = order)
    (hsrc : ∀ e ∈ newEdgesFor net t ck dt n, e.1 = n)
    (h_end : ∀ p ∈ pp n, p.getLast? = some n) :
    ∀ kp ∈ (processNode net t ck dt order pp cand n).2.2,
      0 < contribCount (newEdgesFor net t ck dt n) (pp n) order kp.nodes ∧
      0 < Mcount (pp n) order ∧
      kp.weight =
        (contribCount (newEdgesFor net t ck dt n) (pp n) order kp.nodes : ℚ) *
          unitWeight (newEdgesFor net t ck dt n).length (Mcount (pp n) order) := by
  intro kp hkp
  have hpe := processEdges_final order ck (newEdgesFor net t ck dt n).length n
    hck (newEdgesFor net t ck dt n) ⟨pp, cand, []⟩ hsrc h_end
  simp only [processNode] at hkp
  rcases List.mem_map.mp hkp with ⟨kv, hkv, hkp2⟩
  have hkey : kv.1 ∈ updKeys (processEdges order ck
      (newEdgesFor net t ck dt n).length (newEdgesFor net t ck dt n)
      ⟨pp, cand, []⟩).upd := mem_updKeys hkv
  have hc : 0 < contribCount (newEdgesFor net t ck dt n) (pp n) order kv.1 := by
    rcases hpe.2.2.2.1 kv.1 hkey with h | h
    · simp [updKeys] at h
    · exact h
  have hnd : (updKeys (processEdges order ck
      (newEdgesFor net t ck dt n).length (newEdgesFor net t ck dt n)
      ⟨pp, cand, []⟩).upd).Nodup := by
    apply hpe.2.2.1
    simp [updKeys]
  have hw : kv.2 =
      (contribCount (newEdgesFor net t ck dt n) (pp n) order kv.1 : ℚ) *
        unitWeight (newEdgesFor net t ck dt n).length (Mcount (pp n) order) := by
    have h1 := wlookup_eq_of_mem hnd hkv
    have h2 := hpe.2.1 kv.1
    rw [h1] at h2
    simpa [wlookup] using h2
  have hnodes : kp.nodes = kv.1 := by rw [← hkp2]
  have hweight : kp.weight = kv.2 := by rw [← hkp2]
  rw [hnodes, hweight]
  exact ⟨hc, Mcount_pos_of_contrib hc, hw⟩

/-- C2 witness: the amended weight rule applied to the emitted path
[a,b,c] of the dupNet window, where c = 2, E = 2 and M = 1. -/
theorem c2_witness :
    0 < contribCount (newEdgesFor dupNet 1 1 2 "b") (dupSeed.1 "b") 2
      ["a", "b", "c"] ∧
    0 < Mcount (dupSeed.1 "b") 2 ∧
    (⟨["a", "b", "c"], 1⟩ : KPath).weight =
      (contribCount (newEdgesFor dupNet 1 1 2 "b") (dupSeed.1 "b") 2
        ["a", "b", "c"] : ℚ) *
        unitWeight (newEdgesFor dupNet 1 1 2 "b").length
          (Mcount (dupSeed.1 "b") 2) :=
  c2_amended_weight_rule dupNet 1 1 2 2 "b" dupSeed.1 [] rfl
    (by decide) (by decide) ⟨["a", "b", "c"], 1⟩
    (by with_unfolding_all decide)

/-- C6 counterexample: in selfNet the origin b is the only candidate of
the final extension step of the window anchored at 1, its window holds
the two outgoing edges (b,b) and (b,c), and the weights of all KPaths
emitted from b at that step sum to 1/2, not 1: the self-loop (b,b)
counts in E but contributes no emission. -/
theorem c6_counterexample :
    selfSeed.2 = ["b"] ∧
    (processNode selfNet 1 1 1 2 selfSeed.1 [] "b").2.2 =
      [⟨["a", "b", "c"], (1 : ℚ) / 2⟩] ∧
    ((processNode selfNet 1 1 1 2 selfSeed.1 [] "b").2.2.map
      KPath.weight).sum ≠ 1 := by
  refine ⟨by decide, by with_unfolding_all decide,
    by with_unfolding_all decide⟩

/-- C6 amended: for an origin node n processed at the final extension
step, the weights of all KPaths emitted from n sum to
(E2 * M) / (E * M), where E counts all outgoing window edges of n, E2
only those that do not point back at n, and M the competing live
prefixes of maximal length; the sum is exactly 1 whenever M is
positive, n has at least one outgoing window edge and no outgoing
window edge points back at n. -/
theorem c6_amended_mass (net : TempNet) (t : Int) (ck dt order : Nat)
    (n : Node) (pp : Node → List Path) (cand : List Node)
    (hck : ck + 1 = order)
    (hsrc : ∀ e ∈ newEdgesFor net t ck dt n, e.1 = n)
    (h_end : ∀ p ∈ pp n, p.getLast? = some n) :
    ((processNode net t ck dt order pp cand n).2.2.map KPath.weight).sum =
      (((newEdgesFor net t ck dt n).countP (fun e => decide (¬ e.2 = n)) *
        Mcount (pp n) order : Nat) : ℚ) *
        unitWeight (newEdgesFor net t ck dt n).length (Mcount (pp n) order) ∧
    (0 < Mcount (pp n) order →
      (∀ e ∈ newEdgesFor net t ck dt n, ¬ e.2 = n) →
      newEdgesFor net t ck dt n ≠ [] →
      ((processNode net t ck dt order pp cand n).2.2.map KPath.weight).sum = 1) := by
  have hpe := processEdges_final order ck (newEdgesFor net t ck dt n).length n
    hck (newEdgesFor net t ck dt n) ⟨pp, cand, []⟩ hsrc h_end
  have hsum : ((processNode net t ck dt order pp cand n).2.2.map
      KPath.weight).sum =
      wsum (processEdges order ck (newEdgesFor net t ck dt n).length
        (newEdgesFor net t ck dt n) ⟨pp, cand, []⟩).upd := by
    simp only [processNode]
    rw [List.map_map]
    rfl
  constructor
  · rw [hsum, hpe.2.2.2.2]
    simp [wsum]
  · intro hm hnl hne
    rw [hsum, hpe.2.2.2.2]
    have hcp : (newEdgesFor net t ck dt n).countP (fun e => decide (¬ e.2 = n)) =
        (newEdgesFor net t ck dt n).length := by
      rw [List.countP_eq_length]
      intro e he
      simp [hnl e he]
    have hlen : 0 < (newEdgesFor net t ck dt n).length :=
      List.length_pos.mpr hne
    have hcast : (((newEdgesFor net t ck dt n).length *
        Mcount (pp n) order : Nat) : ℚ) ≠ 0 := by
      apply Nat.cast_ne_zero.mpr
      have := Nat.mul_pos hlen hm
      omega
    have hE0 : (((newEdgesFor net t ck dt n).length : Nat) : ℚ) ≠ 0 :=
      Nat.cast_ne_zero.mpr (by omega)
    have hM0 : ((Mcount (pp n) order : Nat) : ℚ) ≠ 0 :=
      Nat.cast_ne_zero.mpr (by omega)
    rw [hcp, unitWeight]
    simp [wsum]
    field_simp
    ring

/-- C6 witness: on the fixture window anchored at 1, the emissions from
origin b at the final step carry total weight exactly 1. -/
theorem c6_witness :
    ((processNode fixNet 1 1 1 2 fixSeed.1 [] "b").2.2.map
      KPath.weight).sum = 1 :=
  (c6_amended_mass fixNet 1 1 1 2 "b" fixSeed.1 [] rfl (by decide)
    (by decide)).2 (by decide) (by decide) (by decide)

/-- Invariant of the possible_path store: every stored prefix ends in
its key node and never repeats a node in two consecutive positions. -/
def PPInv (pp : Node → List Path) : Prop :=
  ∀ x p, p ∈ pp x → p.getLast? = some x ∧ p.Chain' (fun a b => a ≠ b)

theorem addNew_nodup (l : List Node) (x : Node) (h : l.Nodup) :
    (addNew l x).Nodup := by
  rw [addNew]
  split
  · exact h
  · rw [← List.concat_eq_append]
    exact List.Nodup.concat (by assumption) h

theorem chain_concat (p : Path) (dst : Node)
    (hp : p.Chain' (fun a b => a ≠ b)) (hnd : ¬ p.getLast? = some dst) :
    (p ++ [dst]).Chain' (fun a b => a ≠ b) := by
  rw [List.chain'_append]
  refine ⟨hp, List.chain'_singleton dst, ?_⟩
  intro x hx y hy
  have hy2 : dst = y := by simpa using hy
  subst hy2
  intro hxy
  subst hxy
  exact hnd (Option.mem_def.mp hx)

theorem extendPaths_inv (order ck e_cnt : Nat) (src dst : Node)
    (paths : List Path) (st : WinState)
    (hinv : PPInv st.pp)
    (hpaths : ∀ p ∈ paths, p.Chain' (fun a b => a ≠ b)) :
    PPInv (extendPaths order ck e_cnt src dst paths st).pp ∧
    (∀ q ∈ updKeys (extendPaths order ck e_cnt src dst paths st).upd,
      q ∈ updKeys st.upd ∨ q.Chain' (fun a b => a ≠ b)) ∧
    (st.cand.Nodup → (extendPaths order ck e_cnt src dst paths st).cand.Nodup) := by
  induction paths generalizing st with
  | nil => exact ⟨hinv, fun q hq => Or.inl hq, fun h => h⟩
  | cons p rest ih =>
      have hpchain : p.Chain' (fun a b => a ≠ b) :=
        hpaths p (List.mem_cons_self p rest)
      have hpaths2 : ∀ p2 ∈ rest, p2.Chain' (fun a b => a ≠ b) :=
        fun p2 hp2 => hpaths p2 (List.mem_cons_of_mem _ hp2)
      by_cases hskip : p.getLast? = some dst
      · have hE : extendPaths order ck e_cnt src dst (p :: rest) st =
            extendPaths order ck e_cnt src dst rest st := by
          rw [extendPaths, if_pos hskip]
        rw [hE]
        exact ih st hinv hpaths2
      · have hnewinv : PPInv (fun y =>
            if y = dst then st.pp y ++ [p ++ [dst]] else st.pp y) := by
          intro x q hq
          by_cases hx : x = dst
          · rw [hx] at hq
            simp only [if_pos rfl] at hq
            rcases List.mem_append.mp hq with h | h
            · have := hinv dst q h
              rw [hx]
              exact this
            · have hq2 : q = p ++ [dst] := List.mem_singleton.mp h
              subst hq2
              rw [hx]
              exact ⟨List.getLast?_concat p, chain_concat p dst hpchain hskip⟩
          · simp only [if_neg hx] at hq
            exact hinv x q hq
        have hnewchain : ∀ p2 ∈ rest, p2.Chain' (fun a b => a ≠ b) := hpaths2
        by_cases hcond : ck + 1 = order ∧ (p ++ [dst]).length = order + 1
        · have hE : extendPaths order ck e_cnt src dst (p :: rest) st =
              extendPaths order ck e_cnt src dst rest
                ⟨fun y => if y = dst then st.pp y ++ [p ++ [dst]] else st.pp y,
                 addNew st.cand dst,
                 bump st.upd (p ++ [dst]) ((1 : ℚ) /
                   ((e_cnt * Mcount ((fun y => if y = dst then
                     st.pp y ++ [p ++ [dst]] else st.pp y) src) order : Nat) : ℚ))⟩ := by
            rw [extendPaths, if_neg hskip]
            simp only [if_pos hcond]
          rw [hE]
          have hrec := ih
            ⟨fun y => if y = dst then st.pp y ++ [p ++ [dst]] else st.pp y,
             addNew st.cand dst,
             bump st.upd (p ++ [dst]) ((1 : ℚ) /
               ((e_cnt * Mcount ((fun y => if y = dst then
                 st.pp y ++ [p ++ [dst]] else st.pp y) src) order : Nat) : ℚ))⟩
            hnewinv hnewchain
          refine ⟨hrec.1, fun q hq => ?_, fun hnd => hrec.2.2 (addNew_nodup _ _ hnd)⟩
          rcases hrec.2.1 q hq with h | h
          · rw [updKeys_bump] at h
            by_cases hmem : (p ++ [dst]) ∈ updKeys st.upd
            · rw [if_pos hmem] at h
              exact Or.inl h
            · rw [if_neg hmem] at h
              rcases List.mem_append.mp h with h2 | h2
              · exact Or.inl h2
              · right
                have hq2 : q = p ++ [dst] := List.mem_singleton.mp h2
                subst hq2
                exact chain_concat p dst hpchain hskip
          · exact Or.inr h
        · have hE : extendPaths order ck e_cnt src dst (p :: rest) st =
              extendPaths order ck e_cnt src dst rest
                ⟨fun y => if y = dst then st.pp y ++ [p ++ [dst]] else st.pp y,
                 addNew st.cand dst, st.upd⟩ := by
            rw [extendPaths, if_neg hskip]
            simp only [if_neg hcond]
          rw [hE]
          have hrec := ih
            ⟨fun y => if y = dst then st.pp y ++ [p ++ [dst]] else st.pp y,
             addNew st.cand dst, st.upd⟩ hnewinv hnewchain
          exact ⟨hrec.1, hrec.2.1,
            fun hnd => hrec.2.2 (addNew_nodup _ _ hnd)⟩

theorem processEdges_inv (order ck e_cnt : Nat) (es : List Edge)
    (st : WinState) (hinv : PPInv st.pp) :
    PPInv (processEdges order ck e_cnt es st).pp ∧
    (∀ q ∈ updKeys (processEdges order ck e_cnt es st).upd,
      q ∈ updKeys st.upd ∨ q.Chain' (fun a b => a ≠ b)) ∧
    (st.cand.Nodup → (processEdges order ck e_cnt es st).cand.Nodup) := by
  induction es generalizing st with
  | nil => exact ⟨hinv, fun q hq => Or.inl hq, fun h => h⟩
  | cons e rest ih =>
      have hext := extendPaths_inv order ck e_cnt e.1 e.2 (st.pp e.1) st hinv
        (fun p hp => (hinv e.1 p hp).2)
      have hE : processEdges order ck e_cnt (e :: rest) st =
          processEdges order ck e_cnt rest
            (extendPaths order ck e_cnt e.1 e.2 (st.pp e.1) st) := by
        rw [processEdges]
      rw [hE]
      have hrec := ih (extendPaths order ck e_cnt e.1 e.2 (st.pp e.1) st) hext.1
      refine ⟨hrec.1, fun q hq => ?_, fun hnd => hrec.2.2 (hext.2.2 hnd)⟩
      rcases hrec.2.1 q hq with h | h
      · exact hext.2.1 q h
      · exact Or.inr h

theorem processNode_inv (net : TempNet) (t : Int) (ck dt order : Nat)
    (pp : Node → List Path) (cand : List Node) (n : Node)
    (hinv : PPInv pp) :
    PPInv (processNode net t ck dt order pp cand n).1 ∧
    (cand.Nodup → (processNode net t ck dt order pp cand n).2.1.Nodup) ∧
    (∀ kp ∈ (processNode net t ck dt order pp cand n).2.2,
      kp.nodes.Chain' (fun a b => a ≠ b)) := by
  have hpe := processEdges_inv order ck (newEdgesFor net t ck dt n).length
    (newEdgesFor net t ck dt n) ⟨pp, cand, []⟩ hinv
  refine ⟨hpe.1, hpe.2.2, ?_⟩
  intro kp hkp
  simp only [processNode] at hkp
  rcases List.mem_map.mp hkp with ⟨kv, hkv, hkp2⟩
  have hkey := hpe.2.1 kv.1 (mem_updKeys hkv)
  rcases hkey with h | h
  · simp [updKeys] at h
  · have : kp.nodes = kv.1 := by rw [← hkp2]
    rw [this]
    exact h

theorem processNodes_inv (net : TempNet) (t : Int) (ck dt order : Nat)
    (nodes : List Node) (pp : Node → List Path) (cand : List Node)
    (acc : List KPath) (hinv : PPInv pp) (hcand : cand.Nodup)
    (hacc : ∀ kp ∈ acc, kp.nodes.Chain' (fun a b => a ≠ b)) :
    PPInv (processNodes net t ck dt order nodes pp cand acc).1 ∧
    (processNodes net t ck dt order nodes pp cand acc).2.1.Nodup ∧
    (∀ kp ∈ (processNodes net t ck dt order nodes pp cand acc).2.2,
      kp.nodes.Chain' (fun a b => a ≠ b)) := by
  induction nodes generalizing pp cand acc with
  | nil => exact ⟨hinv, hcand, hacc⟩
  | cons n rest ih =>
      have hpn := processNode_inv net t ck dt order pp cand n hinv
      have hE : processNodes net t ck dt order (n :: rest) pp cand acc =
          processNodes net t ck dt order rest
            (processNode net t ck dt order pp cand n).1
            (processNode net t ck dt order pp cand n).2.1
            (acc ++ (processNode net t ck dt order pp cand n).2.2) := by
        rw [processNodes]
      rw [hE]
      apply ih _ _ _ hpn.1 (hpn.2.1 hcand)
      intro kp hkp
      rcases List.mem_append.mp hkp with h | h
      · exact hacc kp h
      · exact hpn.2.2 kp h

theorem runSteps_chain (net : TempNet) (t : Int) (dt order : Nat)
    (cks : List Nat) (pp : Node → List Path) (cand : List Node)
    (acc : List KPath) (hinv : PPInv pp)
    (hacc : ∀ kp ∈ acc, kp.nodes.Chain' (fun a b => a ≠ b)) :
    ∀ kp ∈ runSteps net t dt order cks pp cand acc,
      kp.nodes.Chain' (fun a b => a ≠ b) := by
  induction cks generalizing pp cand acc with
  | nil => exact hacc
  | cons ck cks ih =>
      have hpn := processNodes_inv net t ck dt order cand pp [] acc hinv
        List.nodup_nil hacc
      have hE : runSteps net t dt order (ck :: cks) pp cand acc =
          runSteps net t dt order cks
            (processNodes net t ck dt order cand pp [] acc).1
            (processNodes net t ck dt order cand pp [] acc).2.1
            (processNodes net t ck dt order cand pp [] acc).2.2 := by
        rw [runSteps]
      rw [hE]
      exact ih _ _ _ hpn.1 hpn.2.2

theorem seedEdges_inv (es : List Edge) (pp : Node → List Path)
    (cand : List Node) (hinv : PPInv pp) (hcand : cand.Nodup) :
    PPInv (seedEdges es pp cand).1 ∧ (seedEdges es pp cand).2.Nodup := by
  induction es generalizing pp cand with
  | nil => exact ⟨hinv, hcand⟩
  | cons e rest ih =>
      by_cases hloop : e.1 ≠ e.2
      · have hE : seedEdges (e :: rest) pp cand =
            seedEdges rest
              (fun y => if y = e.2 then pp y ++ [[e.1, e.2]] else pp y)
              (addNew cand e.2) := by
          rw [seedEdges, if_pos hloop]
        rw [hE]
        apply ih _ _ ?_ (addNew_nodup _ _ hcand)
        intro x q hq
        by_cases hx : x = e.2
        · rw [hx] at hq
          simp only [if_pos rfl] at hq
          rcases List.mem_append.mp hq with h | h
          · have := hinv e.2 q h
            rw [hx]
            exact this
          · have hq2 : q = [e.1, e.2] := List.mem_singleton.mp h
            subst hq2
            rw [hx]
            refine ⟨rfl, ?_⟩
            rw [List.chain'_cons]
            exact ⟨hloop, List.chain'_singleton e.2⟩
        · simp only [if_neg hx] at hq
          exact hinv x q hq
      · have hE : seedEdges (e :: rest) pp cand = seedEdges rest pp cand := by
          rw [seedEdges, if_neg hloop]
        rw [hE]
        exact ih pp cand hinv hcand

theorem processWindow_chain (net : TempNet) (t : Int) (dt order : Nat) :
    ∀ kp ∈ processWindow net t dt order,
      kp.nodes.Chain' (fun a b => a ≠ b) := by
  have hseed := seedEdges_inv (windowEdges net t dt) (fun _ => []) []
    (fun x p hp => absurd hp (List.not_mem_nil p)) List.nodup_nil
  exact runSteps_chain net t dt order (List.range' 1 (order - 1))
    (seedEdges (windowEdges net t dt) (fun _ => []) []).1
    (seedEdges (windowEdges net t dt) (fun _ => []) []).2 []
    hseed.1 (fun kp hkp => absurd hkp (List.not_mem_nil kp))

/-- C7: for every input stream, order and delta, no KPath emitted by
the extractor contains two consecutive equal node identifiers:
self-loops are excluded both at seeding and at extension time. -/
theorem c7_no_consecutive_repeats (net : TempNet) (order dt : Nat) :
    ∀ kp ∈ extract net order dt, kp.nodes.Chain' (fun a b => a ≠ b) := by
  rw [extract]
  generalize net.ordered_times = ts
  generalize (0 : Int) = nv
  induction ts generalizing nv with
  | nil => intro kp hkp; cases hkp
  | cons t ts ih =>
      intro kp hkp
      rw [extractLoop] at hkp
      split at hkp
      · exact ih _ kp hkp
      · rcases List.mem_append.mp hkp with h | h
        · exact processWindow_chain net t dt order kp h
        · exact ih _ kp h

/-- C7 witness: the rule applied to the first path extracted from the
fixture stream. -/
theorem c7_witness :
    (⟨["a", "b", "c"], 1⟩ : KPath).nodes.Chain' (fun a b => a ≠ b) :=
  c7_no_consecutive_repeats fixNet 2 1 ⟨["a", "b", "c"], 1⟩
    (by with_unfolding_all decide)

theorem newEdgesFor_src (net : TempNet) (hconsist : SourcesConsistent net)
    (t : Int) (ck dt : Nat) (n : Node) :
    ∀ e ∈ newEdgesFor net t ck dt n, e.1 = n := by
  intro e he
  rw [newEdgesFor] at he
  rcases List.mem_flatMap.mp he with ⟨i, -, hmem⟩
  exact hconsist _ n e hmem

theorem extendPaths_noemit (order ck e_cnt : Nat) (src dst : Node)
    (paths : List Path) (st : WinState) (h : ¬ ck + 1 = order) :
    (extendPaths order ck e_cnt src dst paths st).upd = st.upd := by
  induction paths generalizing st with
  | nil => rfl
  | cons p rest ih =>
      by_cases hskip : p.getLast? = some dst
      · rw [extendPaths, if_pos hskip]
        exact ih st
      · have hcond : ¬ (ck + 1 = order ∧ (p ++ [dst]).length = order + 1) :=
          fun hc => h hc.1
        have hE : extendPaths order ck e_cnt src dst (p :: rest) st =
            extendPaths order ck e_cnt src dst rest
              ⟨fun y => if y = dst then st.pp y ++ [p ++ [dst]] else st.pp y,
               addNew st.cand dst, st.upd⟩ := by
          rw [extendPaths, if_neg hskip]
          simp only [if_neg hcond]
        rw [hE]
        exact ih _

theorem processEdges_noemit (order ck e_cnt : Nat) (es : List Edge)
    (st : WinState) (h : ¬ ck + 1 = order) :
    (processEdges order ck e_cnt es st).upd = st.upd := by
  induction es generalizing st with
  | nil => rfl
  | cons e rest ih =>
      rw [processEdges]
      rw [ih, extendPaths_noemit order ck e_cnt e.1 e.2 _ st h]

theorem processNodes_noemit (net : TempNet) (t : Int) (ck dt order : Nat)
    (nodes : List Node) (pp : Node → List Path) (cand : List Node)
    (acc : List KPath) (h : ¬ ck + 1 = order) :
    (processNodes net t ck dt order nodes pp cand acc).2.2 = acc := by
  induction nodes generalizing pp cand acc with
  | nil => rfl
  | cons n rest ih =>
      rw [processNodes]
      have hemit : (processNode net t ck dt order pp cand n).2.2 = [] := by
        simp only [processNode]
        rw [processEdges_noemit _ _ _ _ _ h]
        rfl
      rw [ih]
      rw [hemit]
      simp

theorem processNode_final_keys (net : TempNet) (t : Int) (ck dt order : Nat)
    (n : Node) (pp : Node → List Path) (cand : List Node)
    (hck : ck + 1 = order) (hconsist : SourcesConsistent net)
    (hinv : PPInv pp) :
    ((processNode net t ck dt order pp cand n).2.2.map KPath.nodes).Nodup ∧
    (∀ kp ∈ (processNode net t ck dt order pp cand n).2.2,
      kp.nodes.length = order + 1 ∧
      kp.nodes.dropLast.getLast? = some n) := by
  have hsrc := newEdgesFor_src net hconsist t ck dt n
  have h_end : ∀ p ∈ pp n, p.getLast? = some n :=
    fun p hp => (hinv n p hp).1
  have hpe := processEdges_final order ck (newEdgesFor net t ck dt n).length n
    hck (newEdgesFor net t ck dt n) ⟨pp, cand, []⟩ hsrc h_end
  have hmapeq : (processNode net t ck dt order pp cand n).2.2.map KPath.nodes =
      updKeys (processEdges order ck (newEdgesFor net t ck dt n).length
        (newEdgesFor net t ck dt n) ⟨pp, cand, []⟩).upd := by
    simp only [processNode]
    rw [List.map_map]
    rfl
  constructor
  · rw [hmapeq]
    apply hpe.2.2.1
    simp [updKeys]
  · intro kp hkp
    simp only [processNode] at hkp
    rcases List.mem_map.mp hkp with ⟨kv, hkv, hkp2⟩
    have hc : 0 < contribCount (newEdgesFor net t ck dt n) (pp n) order kv.1 := by
      rcases hpe.2.2.2.1 kv.1 (mem_updKeys hkv) with h | h
      · simp [updKeys] at h
      · exact h
    have hshape := contribCount_pos_shape h_end hc
    have hnodes : kp.nodes = kv.1 := by rw [← hkp2]
    rw [hnodes]
    exact hshape

theorem processNodes_final_nodup (net : TempNet) (t : Int) (ck dt order : Nat)
    (hck : ck + 1 = order) (hconsist : SourcesConsistent net) :
    ∀ (nodes : List Node) (pp : Node → List Path) (cand : List Node)
      (acc : List KPath), PPInv pp → nodes.Nodup →
      (acc.map KPath.nodes).Nodup →
      (∀ kp ∈ acc, ∀ n2 ∈ nodes, ¬ kp.nodes.dropLast.getLast? = some n2) →
      ((processNodes net t ck dt order nodes pp cand acc).2.2.map
        KPath.nodes).Nodup := by
  intro nodes
  induction nodes with
  | nil =>
      intro pp cand acc hinv hnd hacc hsep
      exact hacc
  | cons n rest ih =>
      intro pp cand acc hinv hnd hacc hsep
      have hkeys := processNode_final_keys net t ck dt order n pp cand hck
        hconsist hinv
      have hpinv := processNode_inv net t ck dt order pp cand n hinv
      rw [processNodes]
      apply ih _ _ _ hpinv.1 (List.nodup_cons.mp hnd).2
      · rw [List.map_append, List.nodup_append]
        refine ⟨hacc, hkeys.1, ?_⟩
        rw [List.disjoint_right]
        intro x hx hx2
        rcases List.mem_map.mp hx with ⟨kp2, hkp2, hxeq2⟩
        rcases List.mem_map.mp hx2 with ⟨kp1, hkp1, hxeq1⟩
        have h2 := (hkeys.2 kp2 hkp2).2
        have h1 := hsep kp1 hkp1 n (List.mem_cons_self n rest)
        apply h1
        rw [hxeq1, ← hxeq2]
        exact h2
      · intro kp hkp n2 hn2
        rcases List.mem_append.mp hkp with h | h
        · exact hsep kp h n2 (List.mem_cons_of_mem _ hn2)
        · have hkpn := (hkeys.2 kp h).2
          rw [hkpn]
          intro hcon
          have : n = n2 := Option.some.inj hcon
          exact (List.nodup_cons.mp hnd).1 (this ▸ hn2)

theorem runSteps_nodup (net : TempNet) (t : Int) (dt order : Nat)
    (hconsist : SourcesConsistent net) :
    ∀ (cks : List Nat) (pp : Node → List Path) (cand : List Node),
      PPInv pp → cand.Nodup →
      (∀ ck ∈ cks.dropLast, ¬ ck + 1 = order) →
      ((runSteps net t dt order cks pp cand []).map KPath.nodes).Nodup := by
  intro cks
  induction cks with
  | nil =>
      intro pp cand hinv hcand hdrop
      simp [runSteps]
  | cons ck cks ih =>
      intro pp cand hinv hcand hdrop
      cases cks with
      | nil =>
          rw [runSteps, runSteps]
          by_cases hck : ck + 1 = order
          · exact processNodes_final_nodup net t ck dt order hck hconsist
              cand pp [] [] hinv hcand (by simp) (by simp)
          · rw [processNodes_noemit net t ck dt order cand pp [] [] hck]
            simp
      | cons ck2 cks2 =>
          have hck : ¬ ck + 1 = order := by
            apply hdrop ck
            rw [List.dropLast_cons₂]
            exact List.mem_cons_self ck _
          have hpn := processNodes_inv net t ck dt order cand pp [] [] hinv
            List.nodup_nil (by simp)
          have hemit := processNodes_noemit net t ck dt order cand pp [] [] hck
          rw [runSteps]
          rw [hemit]
          apply ih _ _ hpn.1 hpn.2.1
          intro x hx
          apply hdrop x
          rw [List.dropLast_cons₂]
          exact List.mem_cons_of_mem _ hx

theorem dropLast_range'_one (m : Nat) :
    (List.range' 1 m).dropLast = List.range' 1 (m - 1) := by
  cases m with
  | zero => rfl
  | succ k =>
      rw [List.range'_1_concat, List.dropLast_concat]
      rfl

theorem processWindow_nodup (net : TempNet) (t : Int) (dt order : Nat)
    (hconsist : SourcesConsistent net) :
    ((processWindow net t dt order).map KPath.nodes).Nodup := by
  have hseed := seedEdges_inv (windowEdges net t dt) (fun _ => []) []
    (fun x p hp => absurd hp (List.not_mem_nil p)) List.nodup_nil
  apply runSteps_nodup net t dt order hconsist _ _ _ hseed.1 hseed.2
  intro ck hck
  rw [dropLast_range'_one] at hck
  rcases List.mem_range'.mp hck with ⟨i, hi, hcki⟩
  omega

/-- C8: within one anchor window duplicate node sequences are merged
into a single entry (the per-window output never repeats a node
sequence, their weights having been summed in the per-node update
dict), as dupNet shows with its merged weight 1; across different
anchor windows nothing is merged, as twoWinNet shows with two separate
entries for the identical sequence [a,b,c]. -/
theorem c8_window_merging :
    (∀ (net : TempNet) (t : Int) (dt order : Nat), SourcesConsistent net →
      ((processWindow net t dt order).map KPath.nodes).Nodup) ∧
    extract dupNet 2 2 = [⟨["a", "b", "c"], 1⟩] ∧
    extract twoWinNet 2 1 =
      [⟨["a", "b", "c"], 1⟩, ⟨["a", "b", "c"], 1⟩] := by
  refine ⟨fun net t dt order hc => processWindow_nodup net t dt order hc,
    by with_unfolding_all decide, by with_unfolding_all decide⟩

/-- C8 witness: the within-window distinctness applied to the fixture
window anchored at time 1. -/
theorem c8_witness :
    ((processWindow fixNet 1 1 2).map KPath.nodes).Nodup :=
  c8_window_merging.1 fixNet 1 1 2
    (sourcesConsistent_sourcesOf [1, 2, 3] fixTime ",")


end PyTempNets
